import Mathlib

/-!
Shallow embedding of the `adif_parser` Rust crate (src/error.rs, src/types.rs,
src/parser.rs) and verification of its specification claims.

Modelling conventions:
* A Rust `&str` is modelled as a `List Char` of Unicode scalar values; the
  parser's `pos` field is a *byte* offset into the UTF-8 encoding of that
  string, exactly as in the source.  `byteLen` is `str::len`.
* Rust slicing `&s[n..]` panics when `n` is not a character boundary or is
  out of range; `dropB` returns `none` in exactly those cases and the parser
  propagates this as the `crash` outcome (modelling a Rust panic).
* `RunResult` is `Result<T, AdifError>` extended with `crash` for panics.
* The `String` message payloads of `AdifError` variants are presentation-only
  in the source (never inspected); the model keeps the positions and counts
  and elides the message text.
* `char::to_ascii_uppercase` is `Char.toUpper`.  `str::to_uppercase` is
  modelled as `List.map Char.toUpper`, which uppercases ASCII letters only;
  the two agree on all ASCII characters, and no non-ASCII character
  uppercases into the ASCII tag alphabet used by the parser.
* `char::is_whitespace` is modelled by `Char.isWhitespace`; the two agree on
  all ASCII characters.
-/

namespace Adif

/-- Model of `AdifError` (src/error.rs).  Message strings are elided. -/
inductive AdifError where
  | Io : AdifError
  | InvalidDataSpecifier (position : Nat) : AdifError
  | InvalidFieldLength (position : Nat) (expected : Nat) (found : Nat) : AdifError
  | UnexpectedEof (position : Nat) : AdifError
  | InvalidDataType (c : Char) : AdifError
  | ParseError (position : Nat) : AdifError
deriving DecidableEq, Repr

/-- Outcome of running a piece of the Rust parser: a value, a typed error
(`Result::Err`), or `crash`, which models a Rust panic (the byte-slicing
operations in the source panic on non-character-boundary offsets). -/
inductive RunResult (α : Type) where
  | crash : RunResult α
  | error (e : AdifError) : RunResult α
  | ok (a : α) : RunResult α
deriving DecidableEq, Repr

/-- Model of `DataType` (src/types.rs). -/
inductive DataType where
  | Boolean
  | Number
  | Date
  | Time
  | String
  | MultilineString
  | Enumeration
  | Location
  | IntlString
  | IntlMultilineString
  | Unspecified
deriving DecidableEq, Repr

/-- `DataType::from_char` (src/types.rs): `c.to_ascii_uppercase()` matched
against the ten indicator letters. -/
def DataType.from_char (c : Char) : Option DataType :=
  match c.toUpper with
  | 'B' => some DataType.Boolean
  | 'N' => some DataType.Number
  | 'D' => some DataType.Date
  | 'T' => some DataType.Time
  | 'S' => some DataType.String
  | 'M' => some DataType.MultilineString
  | 'E' => some DataType.Enumeration
  | 'L' => some DataType.Location
  | 'I' => some DataType.IntlString
  | 'G' => some DataType.IntlMultilineString
  | _ => none

/-- `DataType::to_char` (src/types.rs). -/
def DataType.to_char : DataType → Option Char
  | DataType.Boolean => some 'B'
  | DataType.Number => some 'N'
  | DataType.Date => some 'D'
  | DataType.Time => some 'T'
  | DataType.String => some 'S'
  | DataType.MultilineString => some 'M'
  | DataType.Enumeration => some 'E'
  | DataType.Location => some 'L'
  | DataType.IntlString => some 'I'
  | DataType.IntlMultilineString => some 'G'
  | DataType.Unspecified => none

/-- Model of `Field` (src/types.rs). -/
structure Field where
  name : List Char
  data_type : DataType
  value : List Char
deriving DecidableEq, Repr

/-- `Field::new` (src/types.rs): name stored upper-cased, `Unspecified` type. -/
def Field.new (name : List Char) (value : List Char) : Field :=
  ⟨name.map Char.toUpper, DataType.Unspecified, value⟩

/-- `Field::with_type` (src/types.rs). -/
def Field.with_type (name : List Char) (data_type : DataType) (value : List Char) : Field :=
  ⟨name.map Char.toUpper, data_type, value⟩

/-- Model of `AdifHeader` (src/types.rs). -/
structure AdifHeader where
  adif_version : Option (List Char)
  program_id : Option (List Char)
  program_version : Option (List Char)
  created_timestamp : Option (List Char)
  fields : List Field
  preamble : List Char
deriving DecidableEq, Repr

/-- `AdifHeader::default()`: all options `None`, empty lists. -/
def AdifHeader.empty : AdifHeader := ⟨none, none, none, none, [], []⟩

/-- Model of `Record` (src/types.rs). -/
structure Record where
  fields : List Field
deriving DecidableEq, Repr

/-- `Record::get` (src/types.rs): upper-case the query, return the first
field whose stored name equals it. -/
def Record.get (r : Record) (name : List Char) : Option Field :=
  r.fields.find? (fun f => f.name == name.map Char.toUpper)

/-- `Record::get_value` (src/types.rs). -/
def Record.get_value (r : Record) (name : List Char) : Option (List Char) :=
  (r.get name).map Field.value

/-- `AdifHeader::get` (src/types.rs). -/
def AdifHeader.get (h : AdifHeader) (name : List Char) : Option Field :=
  h.fields.find? (fun f => f.name == name.map Char.toUpper)

/-- Model of `AdifFile` (src/types.rs). -/
structure AdifFile where
  header : AdifHeader
  records : List Record
deriving DecidableEq, Repr

/-- `str::len` of the UTF-8 encoding of a character list. -/
def byteLen : List Char → Nat
  | [] => 0
  | c :: cs => c.utf8Size + byteLen cs

/-- `&s[n..]` : drop the first `n` bytes.  Returns `none` when `n` is not a
character boundary or exceeds the byte length — the cases where Rust string
slicing panics. -/
def dropB : List Char → Nat → Option (List Char)
  | l, 0 => some l
  | [], _ => none
  | c :: cs, n => if c.utf8Size ≤ n then dropB cs (n - c.utf8Size) else none

/-- `&s[..n]` : take the first `n` bytes.  `none` when `n` is not a
character boundary (Rust slicing panics there). -/
def takeB : List Char → Nat → Option (List Char)
  | _, 0 => some []
  | [], _ => none
  | c :: cs, n =>
    if c.utf8Size ≤ n then (takeB cs (n - c.utf8Size)).map (fun l => c :: l) else none

/-- `peek_char` (src/parser.rs): `self.input[self.pos..].chars().next()`.
`none` models the slicing panic at a non-boundary position. -/
def peek_char (input : List Char) (pos : Nat) : Option (Option Char) :=
  (dropB input pos).map List.head?

/-- Byte length of the leading whitespace run of a character list. -/
def wsBytes : List Char → Nat
  | [] => 0
  | c :: cs => if c.isWhitespace then c.utf8Size + wsBytes cs else 0

/-- `skip_whitespace_and_newlines` (src/parser.rs): advance past whitespace
characters, each by its UTF-8 width.  Returns the new position. -/
def skip_whitespace_and_newlines (input : List Char) (pos : Nat) : Option Nat :=
  (dropB input pos).map (fun rem => pos + wsBytes rem)

/-- Byte offset of the first `<` in a character list, if any. -/
def findLtBytes : List Char → Option Nat
  | [] => none
  | c :: cs => if c = '<' then some 0 else (findLtBytes cs).map (fun n => c.utf8Size + n)

/-- `find_next_tag_start` (src/parser.rs): `self.input[self.pos..].find('<')`
mapped back to an absolute byte offset. -/
def find_next_tag_start (input : List Char) (pos : Nat) : Option (Option Nat) :=
  (dropB input pos).map (fun rem => (findLtBytes rem).map (fun n => pos + n))

/-- Substring containment (`str::contains`) at the character level.  For an
all-ASCII pattern this agrees with Rust's byte-level search, since ASCII
bytes cannot occur inside a multi-byte UTF-8 sequence. -/
def contains_sub (pat : List Char) : List Char → Bool
  | [] => pat.isPrefixOf ([] : List Char)
  | c :: rest => pat.isPrefixOf (c :: rest) || contains_sub pat rest

/-- `check_tag` (src/parser.rs): does the remaining input start with
`<TAG>` or `<TAG:`, case-insensitively?  Pure lookahead; `none` models the
panic of the initial slice at a non-boundary position. -/
def check_tag (input : List Char) (pos : Nat) (tag : List Char) : Option Bool :=
  match dropB input pos with
  | none => none
  | some remaining =>
    if byteLen remaining < tag.length + 2 then some false
    else
      match remaining.map Char.toUpper with
      | [] => some false
      | u :: us =>
        if u = '<' then
          if tag.isPrefixOf us then
            match us.drop tag.length with
            | [] => some false
            | a :: _ => some (a = '>' || a = ':')
          else some false
        else some false

/-- Bytes consumed by the trailing loop of `skip_tag` (src/parser.rs):
advance until just past the first `>` (or to the end of input). -/
def skipUntilGt : List Char → Nat
  | [] => 0
  | c :: cs => if c = '>' then c.utf8Size else c.utf8Size + skipUntilGt cs

/-- `skip_tag` (src/parser.rs): consume `<`, the tag name's bytes, then
everything up to and including the next `>`.  Returns the new position. -/
def skip_tag (input : List Char) (pos : Nat) (tag : List Char) : RunResult Nat :=
  match peek_char input pos with
  | none => RunResult.crash
  | some c? =>
    if c? = some '<' then
      match dropB input (pos + 1 + tag.length) with
      | none => RunResult.crash
      | some rem => RunResult.ok (pos + 1 + tag.length + skipUntilGt rem)
    else RunResult.error (AdifError.ParseError pos)

/-- The field-name scan of `parse_field` (src/parser.rs): advance one *byte*
at a time while the current character is neither `:` nor `>`.  Returns the
scanned characters and the bytes consumed; `none` when a multi-byte
character is stepped into (the following `peek_char` then panics). -/
def nameScan : List Char → Option (List Char × Nat)
  | [] => some ([], 0)
  | c :: cs =>
    if c = ':' ∨ c = '>' then some ([], 0)
    else if c.utf8Size = 1 then
      (nameScan cs).map (fun p => (c :: p.1, p.2 + 1))
    else none

/-- `str::parse::<usize>()` applied to the scanned digit run (src/parser.rs,
`length_str.parse()`):
fails on an empty run and on overflow of a 64-bit `usize`.  It is only ever
applied to runs of ASCII digits here. -/
def parse_usize (s : List Char) : Option Nat :=
  if s = [] then none
  else if s.all Char.isDigit then
    let v := s.foldl (fun acc c => acc * 10 + (c.toNat - '0'.toNat)) 0
    if v < 2 ^ 64 then some v else none
  else none

/-- The optional type-indicator clause of `parse_field` (src/parser.rs,
`let data_type = if ...`): if the character at `pos4` is `:`, consume it,
read one character (stepping one *byte* past it) and resolve it through
`DataType::from_char`, unknown indicators degrading to `Unspecified`;
otherwise leave the position unchanged. -/
def parse_type_indicator (input : List Char) (pos4 : Nat) : RunResult (DataType × Nat) :=
  match peek_char input pos4 with
  | none => RunResult.crash
  | some c4? =>
    if c4? = some ':' then
      match peek_char input (pos4 + 1) with
      | none => RunResult.crash
      | some none => RunResult.error (AdifError.UnexpectedEof (pos4 + 1))
      | some (some tc) =>
        RunResult.ok ((DataType.from_char tc).getD DataType.Unspecified, pos4 + 2)
    else RunResult.ok (DataType.Unspecified, pos4)

/-- `parse_field` (src/parser.rs): parse one `<NAME[:LEN[:T]]>` specifier
starting at byte offset `pos`, returning the field and the new position.
All cursor arithmetic is byte-based, exactly as in the source:
`self.pos += 1` steps over `<`, `:`, name bytes and the type-indicator
character, and the value is the byte slice
`self.input[self.pos .. self.pos + length]`. -/
def parse_field (input : List Char) (pos : Nat) : RunResult (Field × Nat) :=
  match peek_char input pos with
  | none => RunResult.crash
  | some c0? =>
    if c0? ≠ some '<' then RunResult.error (AdifError.ParseError pos)
    else
      match dropB input (pos + 1) with
      | none => RunResult.crash
      | some rem1 =>
        match nameScan rem1 with
        | none => RunResult.crash
        | some (nameChars, nBytes) =>
          if nameChars = [] then RunResult.error (AdifError.InvalidDataSpecifier pos)
          else
            match peek_char input (pos + 1 + nBytes) with
            | none => RunResult.crash
            | some c2? =>
              if c2? = some '>' then
                RunResult.ok (Field.new nameChars [], pos + 1 + nBytes + 1)
              else if c2? ≠ some ':' then
                RunResult.error (AdifError.InvalidDataSpecifier (pos + 1 + nBytes))
              else
                match dropB input (pos + 1 + nBytes + 1) with
                | none => RunResult.crash
                | some rem3 =>
                  match parse_usize (rem3.takeWhile Char.isDigit) with
                  | none => RunResult.error (AdifError.InvalidDataSpecifier (pos + 1 + nBytes + 1))
                  | some length =>
                    match parse_type_indicator input
                        (pos + 1 + nBytes + 1 + (rem3.takeWhile Char.isDigit).length) with
                    | RunResult.crash => RunResult.crash
                    | RunResult.error e => RunResult.error e
                    | RunResult.ok (data_type, pos6) =>
                      match peek_char input pos6 with
                      | none => RunResult.crash
                      | some c6? =>
                        if c6? ≠ some '>' then
                          RunResult.error (AdifError.InvalidDataSpecifier pos6)
                        else if byteLen input < pos6 + 1 + length then
                          RunResult.error (AdifError.InvalidFieldLength (pos6 + 1) length
                            (byteLen input - (pos6 + 1)))
                        else
                          match dropB input (pos6 + 1) with
                          | none => RunResult.crash
                          | some rem7 =>
                            match takeB rem7 length with
                            | none => RunResult.crash
                            | some value =>
                              RunResult.ok (Field.with_type nameChars data_type value,
                                pos6 + 1 + length)

/-- The post-loop step of `parse_records` (src/parser.rs): push the
in-progress record if it is non-empty. -/
def finish_records (acc : List Record) (cur : List Field) : List Record :=
  if cur.isEmpty then acc else acc ++ [⟨cur⟩]

/-- The `EOR` tag name. -/
def eorTag : List Char := ['E', 'O', 'R']

/-- The `EOF` tag name. -/
def eofTag : List Char := ['E', 'O', 'F']

/-- The `EOH` tag name. -/
def eohTag : List Char := ['E', 'O', 'H']

/-- The loop of `parse_records` (src/parser.rs), with an explicit fuel
parameter bounding the number of iterations.  `cur` is the in-progress
record's field list and `acc` the records pushed so far.  Fuel exhaustion
yields `crash`; `parse_records_fuel_stable` shows any fuel above the
remaining byte count gives the same result. -/
def parse_records_loop (input : List Char) :
    Nat → Nat → List Field → List Record → RunResult (List Record)
  | 0, _, _, _ => RunResult.crash
  | fuel + 1, pos, cur, acc =>
    match skip_whitespace_and_newlines input pos with
    | none => RunResult.crash
    | some pos1 =>
      if byteLen input ≤ pos1 then RunResult.ok (finish_records acc cur)
      else
        match peek_char input pos1 with
        | none => RunResult.crash
        | some c? =>
          if c? ≠ some '<' then parse_records_loop input fuel (pos1 + 1) cur acc
          else
            match check_tag input pos1 eorTag with
            | none => RunResult.crash
            | some true =>
              match skip_tag input pos1 eorTag with
              | RunResult.crash => RunResult.crash
              | RunResult.error e => RunResult.error e
              | RunResult.ok pos2 =>
                if cur.isEmpty then parse_records_loop input fuel pos2 cur acc
                else parse_records_loop input fuel pos2 [] (acc ++ [⟨cur⟩])
            | some false =>
              match check_tag input pos1 eofTag with
              | none => RunResult.crash
              | some true =>
                match skip_tag input pos1 eofTag with
                | RunResult.crash => RunResult.crash
                | RunResult.error e => RunResult.error e
                | RunResult.ok _ => RunResult.ok (finish_records acc cur)
              | some false =>
                match parse_field input pos1 with
                | RunResult.crash => RunResult.crash
                | RunResult.error e => RunResult.error e
                | RunResult.ok (field, pos2) =>
                  parse_records_loop input fuel pos2 (cur ++ [field]) acc

/-- `parse_records` (src/parser.rs): run the record loop from `pos` with
enough fuel for the whole input. -/
def parse_records (input : List Char) (pos : Nat) : RunResult (List Record) :=
  parse_records_loop input (byteLen input + 1) pos [] []

/-- The `match field.name` step of `parse_header` (src/parser.rs): fill the
well-known convenience slot, then always push the field. -/
def header_update (h : AdifHeader) (f : Field) : AdifHeader :=
  let h1 :=
    if f.name = ("ADIF_VER".toList) then { h with adif_version := some f.value }
    else if f.name = ("PROGRAMID".toList) then { h with program_id := some f.value }
    else if f.name = ("PROGRAMVERSION".toList) then { h with program_version := some f.value }
    else if f.name = ("CREATED_TIMESTAMP".toList) then
      { h with created_timestamp := some f.value }
    else h
  { h1 with fields := h1.fields ++ [f] }

/-- The loop of `parse_header` (src/parser.rs), fuelled like the record
loop.  Returns the finished header and the position after `<EOH>` (or at
end of input). -/
def parse_header_loop (input : List Char) :
    Nat → Nat → AdifHeader → RunResult (AdifHeader × Nat)
  | 0, _, _ => RunResult.crash
  | fuel + 1, pos, header =>
    match skip_whitespace_and_newlines input pos with
    | none => RunResult.crash
    | some pos1 =>
      if byteLen input ≤ pos1 then RunResult.ok (header, pos1)
      else
        match peek_char input pos1 with
        | none => RunResult.crash
        | some c? =>
          if c? ≠ some '<' then parse_header_loop input fuel (pos1 + 1) header
          else
            match check_tag input pos1 eohTag with
            | none => RunResult.crash
            | some true =>
              match skip_tag input pos1 eohTag with
              | RunResult.crash => RunResult.crash
              | RunResult.error e => RunResult.error e
              | RunResult.ok pos2 => RunResult.ok (header, pos2)
            | some false =>
              match parse_field input pos1 with
              | RunResult.crash => RunResult.crash
              | RunResult.error e => RunResult.error e
              | RunResult.ok (field, pos2) =>
                parse_header_loop input fuel pos2 (header_update header field)

/-- `parse_header` (src/parser.rs): capture the preamble (everything before
the first `<`, sliced from offset 0), then run the header loop. -/
def parse_header (input : List Char) (pos : Nat) : RunResult (AdifHeader × Nat) :=
  match find_next_tag_start input pos with
  | none => RunResult.crash
  | some o? =>
    let preamble_end := o?.getD (byteLen input)
    match takeB input preamble_end with
    | none => RunResult.crash
    | some pre =>
      parse_header_loop input (byteLen input + 1) preamble_end
        { AdifHeader.empty with preamble := pre }

/-- `AdiParser::parse` (src/parser.rs): decide header mode by searching the
up-cased whole input for the literal substring `<EOH>`, then parse header
(if any) followed by records. -/
def parse (input : List Char) : RunResult AdifFile :=
  if contains_sub ("<EOH>".toList) (input.map Char.toUpper) then
    match parse_header input 0 with
    | RunResult.crash => RunResult.crash
    | RunResult.error e => RunResult.error e
    | RunResult.ok (header, pos1) =>
      match parse_records input pos1 with
      | RunResult.crash => RunResult.crash
      | RunResult.error e => RunResult.error e
      | RunResult.ok records => RunResult.ok ⟨header, records⟩
  else
    match parse_records input 0 with
    | RunResult.crash => RunResult.crash
    | RunResult.error e => RunResult.error e
    | RunResult.ok records => RunResult.ok ⟨AdifHeader.empty, records⟩

/-- `parse_adi` (src/parser.rs): the public entry point. -/
def parse_adi (input : String) : RunResult AdifFile :=
  parse input.toList

/-! ### Helper lemmas about characters and byte arithmetic -/

lemma toNat_ofNat_valid (m : Nat) (h : m.isValidChar) : (Char.ofNat m).toNat = m := by
  simp [Char.ofNat, h, Char.ofNatAux, Char.toNat]
  rfl

lemma utf8Size_one_of_le (c : Char) (h : c.toNat ≤ 127) : c.utf8Size = 1 := by
  have hle : c.val ≤ UInt32.ofNatCore 127 Char.utf8Size.proof_1 := by
    rw [UInt32.le_def, BitVec.le_def]
    exact h
  unfold Char.utf8Size
  rw [if_pos hle]

/-- `Char.toUpper` can only produce an ASCII capital letter or leave the
character unchanged: if the result is not a capital letter, it equals the
input. -/
lemma toUpper_inv (c t : Char) (ht : ¬(65 ≤ t.toNat ∧ t.toNat ≤ 90))
    (h : Char.toUpper c = t) : c = t := by
  by_cases hl : c.toNat ≥ 97 ∧ c.toNat ≤ 122
  · exfalso
    have hv : Nat.isValidChar (c.toNat - 32) := by
      unfold Nat.isValidChar
      left
      omega
    have h2 := congrArg Char.toNat h
    simp only [Char.toUpper] at h2
    rw [if_pos hl, toNat_ofNat_valid _ hv] at h2
    omega
  · simpa [Char.toUpper, hl] using h

lemma toUpper_colon_inv (c : Char) (h : Char.toUpper c = ':') : c = ':' :=
  toUpper_inv c ':' (by decide) h

lemma toUpper_gt_inv (c : Char) (h : Char.toUpper c = '>') : c = '>' :=
  toUpper_inv c '>' (by decide) h

lemma isDigit_utf8Size (c : Char) (h : c.isDigit = true) : c.utf8Size = 1 := by
  apply utf8Size_one_of_le
  simp only [Char.isDigit, decide_eq_true_eq, Bool.and_eq_true] at h
  have h1 : c.toNat ≤ Char.toNat '9' := h.2
  have h9 : Char.toNat '9' = 57 := rfl
  omega

lemma byteLen_append (l t : List Char) : byteLen (l ++ t) = byteLen l + byteLen t := by
  induction l with
  | nil => simp [byteLen]
  | cons c cs ih => simp [byteLen, ih]; omega

lemma byteLen_eq_length (l : List Char) (h : ∀ c ∈ l, c.utf8Size = 1) :
    byteLen l = l.length := by
  induction l with
  | nil => simp [byteLen]
  | cons c cs ih =>
    simp only [byteLen, List.length_cons]
    rw [h c (List.mem_cons_self c cs), ih (fun x hx => h x (List.mem_cons_of_mem c hx))]
    omega

lemma dropB_zero (l : List Char) : dropB l 0 = some l := by
  cases l <;> rfl

lemma dropB_step (l : List Char) (n : Nat) (c : Char) (t : List Char)
    (h : dropB l n = some (c :: t)) : dropB l (n + c.utf8Size) = some t := by
  induction l generalizing n with
  | nil =>
    cases n with
    | zero => simp [dropB] at h
    | succ m => simp [dropB] at h
  | cons a as ih =>
    cases n with
    | zero =>
      rw [dropB_zero] at h
      injection h with h
      cases h
      have hpos : 0 < c.utf8Size := Char.utf8Size_pos c
      have h1 : dropB (c :: t) (0 + c.utf8Size) = dropB t (c.utf8Size - c.utf8Size) := by
        cases hs : c.utf8Size with
        | zero => omega
        | succ k => simp [dropB, hs]
      rw [h1]
      simp [dropB_zero]
    | succ m =>
      have ha : dropB (a :: as) (m + 1) =
          if a.utf8Size ≤ m + 1 then dropB as (m + 1 - a.utf8Size) else none := rfl
      rw [ha] at h
      by_cases hle : a.utf8Size ≤ m + 1
      · rw [if_pos hle] at h
        have := ih (m + 1 - a.utf8Size) h
        have hb : dropB (a :: as) (m + 1 + c.utf8Size) =
            if a.utf8Size ≤ m + 1 + c.utf8Size then
              dropB as (m + 1 + c.utf8Size - a.utf8Size) else none := by
          cases hs : m + 1 + c.utf8Size with
          | zero => omega
          | succ k => simp [dropB, hs]
        rw [hb, if_pos (by omega)]
        have harith : m + 1 + c.utf8Size - a.utf8Size = m + 1 - a.utf8Size + c.utf8Size := by
          omega
        rw [harith]
        exact this
      · rw [if_neg hle] at h
        exact absurd h (by simp)

lemma dropB_chunk (l : List Char) (n : Nat) (m t : List Char)
    (h : dropB l n = some (m ++ t)) : dropB l (n + byteLen m) = some t := by
  induction m generalizing n with
  | nil => simpa [byteLen] using h
  | cons c cs ih =>
    have h1 : dropB l (n + c.utf8Size) = some (cs ++ t) := dropB_step l n c (cs ++ t) h
    have h2 := ih (n + c.utf8Size) h1
    have : n + byteLen (c :: cs) = n + c.utf8Size + byteLen cs := by
      simp [byteLen]
      omega
    rw [this]
    exact h2

lemma dropB_append_self (l t : List Char) : dropB (l ++ t) (byteLen l) = some t := by
  have := dropB_chunk (l ++ t) 0 l t (by rw [dropB_zero])
  simpa using this

lemma dropB_byteLen (l : List Char) (n : Nat) (r : List Char)
    (h : dropB l n = some r) : byteLen l = n + byteLen r := by
  induction l generalizing n with
  | nil =>
    cases n with
    | zero => rw [dropB_zero] at h; injection h with h; simp [← h]
    | succ m => simp [dropB] at h
  | cons a as ih =>
    cases n with
    | zero => rw [dropB_zero] at h; injection h with h; simp [← h]
    | succ m =>
      have ha : dropB (a :: as) (m + 1) =
          if a.utf8Size ≤ m + 1 then dropB as (m + 1 - a.utf8Size) else none := rfl
      rw [ha] at h
      by_cases hle : a.utf8Size ≤ m + 1
      · rw [if_pos hle] at h
        have := ih (m + 1 - a.utf8Size) h
        simp only [byteLen]
        omega
      · rw [if_neg hle] at h
        exact absurd h (by simp)

lemma takeB_append_self (l t : List Char) : takeB (l ++ t) (byteLen l) = some l := by
  induction l with
  | nil => simp [byteLen, takeB]
  | cons c cs ih =>
    have hpos : 0 < c.utf8Size := Char.utf8Size_pos c
    have h1 : takeB (c :: (cs ++ t)) (c.utf8Size + byteLen cs) =
        if c.utf8Size ≤ c.utf8Size + byteLen cs then
          (takeB (cs ++ t) (c.utf8Size + byteLen cs - c.utf8Size)).map (fun l => c :: l)
        else none := by
      cases hs : c.utf8Size + byteLen cs with
      | zero => omega
      | succ k => simp [takeB, hs]
    simp only [List.cons_append, byteLen, h1, if_pos (Nat.le_add_right _ _)]
    have harith : c.utf8Size + byteLen cs - c.utf8Size = byteLen cs := by omega
    rw [harith, ih]
    rfl

/-! ### Lemmas about the scanning primitives -/

lemma peek_char_of_dropB (input : List Char) (pos : Nat) (r : List Char)
    (h : dropB input pos = some r) : peek_char input pos = some r.head? := by
  simp [peek_char, h]

lemma nameScan_stop (name : List Char) (stop : Char) (t : List Char)
    (hstop : stop = ':' ∨ stop = '>')
    (hname : ∀ c ∈ name, c.utf8Size = 1 ∧ c ≠ ':' ∧ c ≠ '>') :
    nameScan (name ++ stop :: t) = some (name, name.length) := by
  induction name with
  | nil =>
    rcases hstop with h | h <;> simp [nameScan, h]
  | cons c cs ih =>
    have hc := hname c (List.mem_cons_self c cs)
    have ihh := ih (fun x hx => hname x (List.mem_cons_of_mem c hx))
    simp only [List.cons_append, nameScan]
    rw [if_neg (by tauto), if_pos hc.1, List.append_eq, ihh]
    rfl

lemma takeWhile_digits (digits : List Char) (stop : Char) (t : List Char)
    (hd : ∀ c ∈ digits, c.isDigit = true) (hstop : stop.isDigit = false) :
    (digits ++ stop :: t).takeWhile Char.isDigit = digits := by
  induction digits with
  | nil => simp [List.takeWhile, hstop]
  | cons c cs ih =>
    have hc := hd c (List.mem_cons_self c cs)
    simp only [List.cons_append, List.takeWhile, hc]
    rw [List.append_eq, ih (fun x hx => hd x (List.mem_cons_of_mem c hx))]

lemma parse_usize_facts (digits : List Char) (L : Nat)
    (h : parse_usize digits = some L) :
    digits ≠ [] ∧ (∀ c ∈ digits, c.isDigit = true) := by
  unfold parse_usize at h
  split at h
  · exact absurd h (by simp)
  · split at h
    · next hall =>
      refine ⟨by assumption, ?_⟩
      intro c hc
      exact List.all_eq_true.mp hall c hc
    · exact absurd h (by simp)

lemma digits_byteLen (digits : List Char) (hd : ∀ c ∈ digits, c.isDigit = true) :
    byteLen digits = digits.length :=
  byteLen_eq_length digits (fun c hc => isDigit_utf8Size c (hd c hc))

/-! ### Behaviour of `parse_field` on well-shaped specifiers -/

/-- A marker tag `<NAME>`: `parse_field` returns a `Field` with the
upper-cased name, empty value and `Unspecified` type, and advances just
past the `>`. -/
lemma parse_field_marker (input : List Char) (pos : Nat) (name rest : List Char)
    (hdrop : dropB input pos = some ('<' :: (name ++ '>' :: rest)))
    (hne : name ≠ [])
    (hname : ∀ c ∈ name, c.utf8Size = 1 ∧ c ≠ ':' ∧ c ≠ '>') :
    parse_field input pos = RunResult.ok (Field.new name [], pos + 1 + name.length + 1) := by
  have hpeek : peek_char input pos = some (some '<') := by
    rw [peek_char_of_dropB input pos _ hdrop]
    rfl
  have hdrop1 : dropB input (pos + 1) = some (name ++ '>' :: rest) := by
    have := dropB_step input pos '<' (name ++ '>' :: rest) hdrop
    simpa using this
  have hscan : nameScan (name ++ '>' :: rest) = some (name, name.length) :=
    nameScan_stop name '>' rest (Or.inr rfl) hname
  have hblen : byteLen name = name.length :=
    byteLen_eq_length name (fun c hc => (hname c hc).1)
  have hdrop2 : dropB input (pos + 1 + name.length) = some ('>' :: rest) := by
    have := dropB_chunk input (pos + 1) name ('>' :: rest) hdrop1
    rwa [hblen] at this
  have hpeek2 : peek_char input (pos + 1 + name.length) = some (some '>') := by
    rw [peek_char_of_dropB input _ _ hdrop2]
    rfl
  unfold parse_field
  simp [hpeek, hdrop1, hscan, hne, hpeek2]

/-- A specifier `<NAME:LEN>` whose declared length exceeds the *bytes*
remaining after `>`: `parse_field` fails with `InvalidFieldLength` carrying
the position after `>`, the declared length, and the bytes available. -/
lemma parse_field_too_long (input : List Char) (pos : Nat) (name digits rest : List Char)
    (L : Nat)
    (hdrop : dropB input pos = some ('<' :: (name ++ ':' :: (digits ++ '>' :: rest))))
    (hne : name ≠ [])
    (hname : ∀ c ∈ name, c.utf8Size = 1 ∧ c ≠ ':' ∧ c ≠ '>')
    (hL : parse_usize digits = some L)
    (hshort : byteLen rest < L) :
    parse_field input pos = RunResult.error
      (AdifError.InvalidFieldLength (pos + 1 + name.length + 1 + digits.length + 1) L
        (byteLen rest)) := by
  obtain ⟨hdne, hdall⟩ := parse_usize_facts digits L hL
  have hpeek : peek_char input pos = some (some '<') := by
    rw [peek_char_of_dropB input pos _ hdrop]
    rfl
  have hdrop1 : dropB input (pos + 1) = some (name ++ ':' :: (digits ++ '>' :: rest)) := by
    have := dropB_step input pos '<' _ hdrop
    simpa using this
  have hscan : nameScan (name ++ ':' :: (digits ++ '>' :: rest)) = some (name, name.length) :=
    nameScan_stop name ':' _ (Or.inl rfl) hname
  have hblen : byteLen name = name.length :=
    byteLen_eq_length name (fun c hc => (hname c hc).1)
  have hdrop2 : dropB input (pos + 1 + name.length) =
      some (':' :: (digits ++ '>' :: rest)) := by
    have := dropB_chunk input (pos + 1) name _ hdrop1
    rwa [hblen] at this
  have hpeek2 : peek_char input (pos + 1 + name.length) = some (some ':') := by
    rw [peek_char_of_dropB input _ _ hdrop2]
    rfl
  have hdrop3 : dropB input (pos + 1 + name.length + 1) = some (digits ++ '>' :: rest) := by
    have := dropB_step input _ ':' _ hdrop2
    simpa using this
  have htw : (digits ++ '>' :: rest).takeWhile Char.isDigit = digits :=
    takeWhile_digits digits '>' rest hdall (by decide)
  have hdblen : byteLen digits = digits.length := digits_byteLen digits hdall
  have hdrop4 : dropB input (pos + 1 + name.length + 1 + digits.length) =
      some ('>' :: rest) := by
    have := dropB_chunk input (pos + 1 + name.length + 1) digits _ hdrop3
    rwa [hdblen] at this
  have hpeek4 : peek_char input (pos + 1 + name.length + 1 + digits.length) =
      some (some '>') := by
    rw [peek_char_of_dropB input _ _ hdrop4]
    rfl
  have hdrop7 : dropB input (pos + 1 + name.length + 1 + digits.length + 1) =
      some rest := by
    have := dropB_step input _ '>' _ hdrop4
    simpa using this
  have hlen : byteLen input = pos + 1 + name.length + 1 + digits.length + 1 + byteLen rest :=
    dropB_byteLen input _ rest hdrop7
  unfold parse_field
  rw [hpeek]
  simp only [ne_eq, reduceCtorEq, not_false_eq_true, reduceIte, Char.reduceEq,
    Option.some.injEq, ite_not, parse_type_indicator, hdrop1, hscan, hne, hpeek2, hdrop3,
    htw, hL, hpeek4]
  rw [if_pos (by omega)]
  have h2 : byteLen input - (pos + 1 + name.length + 1 + digits.length + 1) = byteLen rest := by
    omega
  rw [h2]

/-- A specifier `<NAME:LEN:T>` with a one-byte type-indicator character and
a value of exactly `LEN` bytes: `parse_field` succeeds, resolving the type
through `DataType.from_char` with unrecognized indicators degrading to
`Unspecified`. -/
lemma parse_field_typed (input : List Char) (pos : Nat) (name digits value rest : List Char)
    (tc : Char) (L : Nat)
    (hdrop : dropB input pos =
      some ('<' :: (name ++ ':' :: (digits ++ ':' :: tc :: '>' :: (value ++ rest)))))
    (hne : name ≠ [])
    (hname : ∀ c ∈ name, c.utf8Size = 1 ∧ c ≠ ':' ∧ c ≠ '>')
    (hL : parse_usize digits = some L)
    (htc : tc.utf8Size = 1)
    (hval : byteLen value = L) :
    parse_field input pos = RunResult.ok
      (Field.with_type name ((DataType.from_char tc).getD DataType.Unspecified) value,
        pos + 1 + name.length + 1 + digits.length + 2 + 1 + L) := by
  obtain ⟨hdne, hdall⟩ := parse_usize_facts digits L hL
  have hpeek : peek_char input pos = some (some '<') := by
    rw [peek_char_of_dropB input pos _ hdrop]
    rfl
  have hdrop1 : dropB input (pos + 1) =
      some (name ++ ':' :: (digits ++ ':' :: tc :: '>' :: (value ++ rest))) := by
    have := dropB_step input pos '<' _ hdrop
    simpa using this
  have hscan : nameScan (name ++ ':' :: (digits ++ ':' :: tc :: '>' :: (value ++ rest))) =
      some (name, name.length) :=
    nameScan_stop name ':' _ (Or.inl rfl) hname
  have hblen : byteLen name = name.length :=
    byteLen_eq_length name (fun c hc => (hname c hc).1)
  have hdrop2 : dropB input (pos + 1 + name.length) =
      some (':' :: (digits ++ ':' :: tc :: '>' :: (value ++ rest))) := by
    have := dropB_chunk input (pos + 1) name _ hdrop1
    rwa [hblen] at this
  have hpeek2 : peek_char input (pos + 1 + name.length) = some (some ':') := by
    rw [peek_char_of_dropB input _ _ hdrop2]
    rfl
  have hdrop3 : dropB input (pos + 1 + name.length + 1) =
      some (digits ++ ':' :: tc :: '>' :: (value ++ rest)) := by
    have := dropB_step input _ ':' _ hdrop2
    simpa using this
  have htw : (digits ++ ':' :: tc :: '>' :: (value ++ rest)).takeWhile Char.isDigit = digits :=
    takeWhile_digits digits ':' _ hdall (by decide)
  have hdblen : byteLen digits = digits.length := digits_byteLen digits hdall
  have hdrop4 : dropB input (pos + 1 + name.length + 1 + digits.length) =
      some (':' :: tc :: '>' :: (value ++ rest)) := by
    have := dropB_chunk input (pos + 1 + name.length + 1) digits _ hdrop3
    rwa [hdblen] at this
  have hpeek4 : peek_char input (pos + 1 + name.length + 1 + digits.length) =
      some (some ':') := by
    rw [peek_char_of_dropB input _ _ hdrop4]
    rfl
  have hdrop5 : dropB input (pos + 1 + name.length + 1 + digits.length + 1) =
      some (tc :: '>' :: (value ++ rest)) := by
    have := dropB_step input _ ':' _ hdrop4
    simpa using this
  have hpeek5 : peek_char input (pos + 1 + name.length + 1 + digits.length + 1) =
      some (some tc) := by
    rw [peek_char_of_dropB input _ _ hdrop5]
    rfl
  have hdrop6 : dropB input (pos + 1 + name.length + 1 + digits.length + 2) =
      some ('>' :: (value ++ rest)) := by
    have h5 := dropB_step input _ tc _ hdrop5
    rw [htc] at h5
    have : pos + 1 + name.length + 1 + digits.length + 1 + 1 =
        pos + 1 + name.length + 1 + digits.length + 2 := by omega
    rwa [this] at h5
  have hpeek6 : peek_char input (pos + 1 + name.length + 1 + digits.length + 2) =
      some (some '>') := by
    rw [peek_char_of_dropB input _ _ hdrop6]
    rfl
  have hdrop7 : dropB input (pos + 1 + name.length + 1 + digits.length + 2 + 1) =
      some (value ++ rest) := by
    have := dropB_step input _ '>' _ hdrop6
    simpa using this
  have hlen : byteLen input =
      pos + 1 + name.length + 1 + digits.length + 2 + 1 + (L + byteLen rest) := by
    have := dropB_byteLen input _ _ hdrop7
    rwa [byteLen_append, hval] at this
  have htake : takeB (value ++ rest) L = some value := by
    rw [← hval]
    exact takeB_append_self value rest
  unfold parse_field
  rw [hpeek]
  simp only [ne_eq, reduceCtorEq, not_false_eq_true, reduceIte, Char.reduceEq,
    Option.some.injEq, ite_not, parse_type_indicator, hdrop1, hscan, hne, hpeek2, hdrop3,
    htw, hL, hpeek4, hpeek5, hpeek6]
  rw [if_neg (by omega), hdrop7]
  simp only [htake]

/-! ### `check_tag` on non-marker names -/

/-- A tag `<NAME>` whose upper-cased name is not the structural tag `tag`
(and whose characters exclude `:` and `>`) is not recognized by
`check_tag`: partial-name prefixes do not match. -/
lemma check_tag_marker_false (input : List Char) (pos : Nat) (name rest tag : List Char)
    (hdrop : dropB input pos = some ('<' :: (name ++ '>' :: rest)))
    (hname : ∀ c ∈ name, c ≠ ':' ∧ c ≠ '>')
    (hgt : '>' ∉ tag)
    (hne : name.map Char.toUpper ≠ tag) :
    check_tag input pos tag = some false := by
  unfold check_tag
  simp only [hdrop]
  split
  · rfl
  · have hmap : ('<' :: (name ++ '>' :: rest)).map Char.toUpper =
        '<' :: (name.map Char.toUpper ++ '>' :: rest.map Char.toUpper) := by
      simp only [List.map_cons, List.map_append]
      rw [show Char.toUpper '<' = '<' from by decide,
        show Char.toUpper '>' = '>' from by decide]
    rw [hmap]
    simp only [reduceIte, Char.reduceEq]
    set un := name.map Char.toUpper with hun
    by_cases hp : tag.isPrefixOf (un ++ '>' :: rest.map Char.toUpper)
    · rw [if_pos hp]
      have hp' : tag <+: un ++ '>' :: rest.map Char.toUpper :=
        List.isPrefixOf_iff_prefix.mp hp
      rcases Nat.lt_trichotomy tag.length un.length with hlt | heq | hgt2
      · have hdropu : (un ++ '>' :: rest.map Char.toUpper).drop tag.length =
            un.drop tag.length ++ '>' :: rest.map Char.toUpper :=
          List.drop_append_of_le_length (le_of_lt hlt)
        have hlen2 : (un.drop tag.length).length = un.length - tag.length :=
          List.length_drop _ _
        cases hd : un.drop tag.length with
        | nil => rw [hd] at hlen2; simp at hlen2; omega
        | cons a l' =>
          rw [hdropu, hd]
          have ha : a ∈ un := List.mem_of_mem_drop (by rw [hd]; exact List.mem_cons_self a l')
          obtain ⟨c, hcmem, hcup⟩ := List.mem_map.mp ha
          have hc := hname c hcmem
          have ha1 : a ≠ '>' := fun hh => hc.2 (toUpper_gt_inv c (hcup.trans hh))
          have ha2 : a ≠ ':' := fun hh => hc.1 (toUpper_colon_inv c (hcup.trans hh))
          simp [ha1, ha2]
      · exfalso
        apply hne
        have := List.prefix_iff_eq_take.mp hp'
        rw [heq] at this
        rw [this, List.take_left]
      · exfalso
        apply hgt
        have := List.prefix_iff_eq_take.mp hp'
        rw [List.take_append_eq_append_take] at this
        have htk : ('>' :: rest.map Char.toUpper).take (tag.length - un.length) =
            '>' :: (rest.map Char.toUpper).take (tag.length - un.length - 1) := by
          cases hm : tag.length - un.length with
          | zero => omega
          | succ k => simp [List.take]
        rw [htk] at this
        rw [this]
        exact List.mem_append_right _ (List.mem_cons_self _ _)
    · rw [if_neg hp]

/-! ### Cursor-advance lemmas -/

lemma skip_ws_ge (input : List Char) (pos pos1 : Nat)
    (h : skip_whitespace_and_newlines input pos = some pos1) : pos ≤ pos1 := by
  unfold skip_whitespace_and_newlines at h
  cases hd : dropB input pos with
  | none => rw [hd] at h; simp at h
  | some rem => rw [hd] at h; simp at h; omega

lemma skip_tag_pos_mono (input : List Char) (pos : Nat) (tag : List Char) (pos2 : Nat)
    (h : skip_tag input pos tag = RunResult.ok pos2) : pos + 1 + tag.length ≤ pos2 := by
  unfold skip_tag at h
  split at h
  · exact absurd h (by simp)
  · split at h
    · split at h
      · exact absurd h (by simp)
      · injection h with h
        omega
    · exact absurd h (by simp)

lemma parse_type_indicator_mono (input : List Char) (p : Nat) (dt : DataType) (p6 : Nat)
    (h : parse_type_indicator input p = RunResult.ok (dt, p6)) : p ≤ p6 := by
  unfold parse_type_indicator at h
  repeat' split at h
  all_goals try exact absurd h (fun hh => RunResult.noConfusion hh)
  all_goals injection h with h
  all_goals injection h with h1 h2
  all_goals omega

set_option maxHeartbeats 1000000 in
lemma parse_field_pos_mono (input : List Char) (pos : Nat) (f : Field) (pos2 : Nat)
    (h : parse_field input pos = RunResult.ok (f, pos2)) : pos < pos2 := by
  unfold parse_field at h
  repeat' split at h
  all_goals try exact absurd h (fun hh => RunResult.noConfusion hh)
  all_goals injection h with h
  all_goals injection h with h1 h2
  all_goals try omega
  all_goals rename parse_type_indicator _ _ = RunResult.ok _ => hty
  all_goals have := parse_type_indicator_mono _ _ _ _ hty
  all_goals omega

/-! ### Loop-level lemmas -/

lemma finish_records_no_empty (acc : List Record) (cur : List Field)
    (hacc : ∀ r ∈ acc, r.fields ≠ []) :
    ∀ r ∈ finish_records acc cur, r.fields ≠ [] := by
  intro r hr
  unfold finish_records at hr
  split at hr
  · exact hacc r hr
  · next hcur =>
    rcases List.mem_append.mp hr with hm | hm
    · exact hacc r hm
    · have : r = ⟨cur⟩ := by simpa using hm
      subst this
      simpa [List.isEmpty_iff] using hcur

/-- Records are pushed only when non-empty, so the record loop never emits
an empty record. -/
lemma records_loop_no_empty (input : List Char) :
    ∀ (fuel pos : Nat) (cur : List Field) (acc out : List Record),
      (∀ r ∈ acc, r.fields ≠ []) →
      parse_records_loop input fuel pos cur acc = RunResult.ok out →
      ∀ r ∈ out, r.fields ≠ [] := by
  intro fuel
  induction fuel with
  | zero =>
    intro pos cur acc out hacc h
    exact absurd h (by simp [parse_records_loop])
  | succ fuel ih =>
    intro pos cur acc out hacc h
    unfold parse_records_loop at h
    repeat' split at h
    all_goals try exact absurd h (fun hh => RunResult.noConfusion hh)
    all_goals try (injection h with h; subst h; exact finish_records_no_empty acc cur hacc)
    all_goals try exact ih _ _ _ _ hacc h
    -- the remaining branch pushed the non-empty current record
    refine ih _ _ _ _ ?_ h
    intro r hr
    rcases List.mem_append.mp hr with hm | hm
    · exact hacc r hm
    · have hre : r = ⟨cur⟩ := by simpa using hm
      subst hre
      rename ¬(List.isEmpty _ = true) => hcur
      simpa [List.isEmpty_iff] using hcur

/-- Unfolding the record loop at an `EOF` tag: the loop stops at once with
the records accumulated so far (plus a non-empty in-progress record),
discarding everything after the tag. -/
lemma records_loop_eof_step (input : List Char) (fuel pos : Nat) (cur : List Field)
    (acc : List Record) (pos1 pos2 : Nat)
    (hskip : skip_whitespace_and_newlines input pos = some pos1)
    (hlt : pos1 < byteLen input)
    (hpk : peek_char input pos1 = some (some '<'))
    (heor : check_tag input pos1 eorTag = some false)
    (heof : check_tag input pos1 eofTag = some true)
    (hsk : skip_tag input pos1 eofTag = RunResult.ok pos2) :
    parse_records_loop input (fuel + 1) pos cur acc =
      RunResult.ok (finish_records acc cur) := by
  unfold parse_records_loop
  simp only [hskip]
  rw [if_neg (not_le.mpr hlt)]
  simp [hpk, heor, heof, hsk]

/-- Unfolding the record loop at a marker tag `<NAME>` whose name is not
(case-insensitively) `EOR` or `EOF`: the tag is parsed as a field with
empty value and appended to the in-progress record. -/
lemma records_loop_marker_step (input : List Char) (fuel pos : Nat) (cur : List Field)
    (acc : List Record) (pos1 : Nat) (name rest : List Char)
    (hskip : skip_whitespace_and_newlines input pos = some pos1)
    (hlt : pos1 < byteLen input)
    (hdrop : dropB input pos1 = some ('<' :: (name ++ '>' :: rest)))
    (hne : name ≠ [])
    (hname : ∀ c ∈ name, c.utf8Size = 1 ∧ c ≠ ':' ∧ c ≠ '>')
    (hnr : name.map Char.toUpper ≠ eorTag)
    (hnf : name.map Char.toUpper ≠ eofTag) :
    parse_records_loop input (fuel + 1) pos cur acc =
      parse_records_loop input fuel (pos1 + 1 + name.length + 1)
        (cur ++ [Field.new name []]) acc := by
  have hpk : peek_char input pos1 = some (some '<') := by
    rw [peek_char_of_dropB _ _ _ hdrop]
    rfl
  have hname2 : ∀ c ∈ name, c ≠ ':' ∧ c ≠ '>' := fun c hc => (hname c hc).2
  have heor : check_tag input pos1 eorTag = some false :=
    check_tag_marker_false _ _ _ _ _ hdrop hname2 (by decide) hnr
  have heof : check_tag input pos1 eofTag = some false :=
    check_tag_marker_false _ _ _ _ _ hdrop hname2 (by decide) hnf
  have hpf := parse_field_marker input pos1 name rest hdrop hne hname
  conv_lhs => unfold parse_records_loop
  simp only [hskip]
  rw [if_neg (not_le.mpr hlt)]
  simp [hpk, heor, heof, hpf]

/-- Unfolding the header loop at a marker tag `<NAME>` whose name is not
(case-insensitively) `EOH`: the tag is parsed as a field and routed into
the header via `header_update` (which always appends it). -/
lemma header_loop_marker_step (input : List Char) (fuel pos : Nat) (header : AdifHeader)
    (pos1 : Nat) (name rest : List Char)
    (hskip : skip_whitespace_and_newlines input pos = some pos1)
    (hlt : pos1 < byteLen input)
    (hdrop : dropB input pos1 = some ('<' :: (name ++ '>' :: rest)))
    (hne : name ≠ [])
    (hname : ∀ c ∈ name, c.utf8Size = 1 ∧ c ≠ ':' ∧ c ≠ '>')
    (hnh : name.map Char.toUpper ≠ eohTag) :
    parse_header_loop input (fuel + 1) pos header =
      parse_header_loop input fuel (pos1 + 1 + name.length + 1)
        (header_update header (Field.new name [])) := by
  have hpk : peek_char input pos1 = some (some '<') := by
    rw [peek_char_of_dropB _ _ _ hdrop]
    rfl
  have hname2 : ∀ c ∈ name, c ≠ ':' ∧ c ≠ '>' := fun c hc => (hname c hc).2
  have heoh : check_tag input pos1 eohTag = some false :=
    check_tag_marker_false _ _ _ _ _ hdrop hname2 (by decide) hnh
  have hpf := parse_field_marker input pos1 name rest hdrop hne hname
  conv_lhs => unfold parse_header_loop
  simp only [hskip]
  rw [if_neg (not_le.mpr hlt)]
  simp [hpk, heoh, hpf]

/-- Fuel-insensitivity of the record loop: any fuel exceeding the number of
remaining bytes yields the same result, because every iteration advances
the cursor by at least one byte. -/
lemma records_loop_fuel_stable (input : List Char) :
    ∀ (f g pos : Nat) (cur : List Field) (acc : List Record),
      byteLen input - pos < f → byteLen input - pos < g →
      parse_records_loop input f pos cur acc = parse_records_loop input g pos cur acc := by
  intro f
  induction f with
  | zero =>
    intro g pos cur acc hf hg
    omega
  | succ f ih =>
    intro g pos cur acc hf hg
    cases g with
    | zero => omega
    | succ g =>
      unfold parse_records_loop
      cases hs : skip_whitespace_and_newlines input pos with
      | none => simp only [hs]
      | some pos1 =>
        simp only [hs]
        have hge := skip_ws_ge input pos pos1 hs
        by_cases hb : byteLen input ≤ pos1
        · rw [if_pos hb, if_pos hb]
        · rw [if_neg hb, if_neg hb]
          cases hp : peek_char input pos1 with
          | none => simp only [hp]
          | some c? =>
            simp only [hp]
            by_cases hc : c? ≠ some '<'
            · rw [if_pos hc, if_pos hc]
              exact ih g (pos1 + 1) cur acc (by omega) (by omega)
            · rw [if_neg hc, if_neg hc]
              cases hce : check_tag input pos1 eorTag with
              | none => simp only [hce]
              | some b =>
                cases b with
                | true =>
                  simp only [hce]
                  cases hsk : skip_tag input pos1 eorTag with
                  | crash => simp only [hsk]
                  | error e => simp only [hsk]
                  | ok pos2 =>
                    simp only [hsk]
                    have hm := skip_tag_pos_mono _ _ _ _ hsk
                    by_cases hcur : cur.isEmpty
                    · rw [if_pos hcur, if_pos hcur]
                      exact ih g pos2 cur acc (by omega) (by omega)
                    · rw [if_neg hcur, if_neg hcur]
                      exact ih g pos2 [] (acc ++ [⟨cur⟩]) (by omega) (by omega)
                | false =>
                  simp only [hce]
                  cases hcf : check_tag input pos1 eofTag with
                  | none => simp only [hcf]
                  | some b2 =>
                    cases b2 with
                    | true =>
                      simp only [hcf]
                    | false =>
                      simp only [hcf]
                      cases hpf : parse_field input pos1 with
                      | crash => simp only [hpf]
                      | error e => simp only [hpf]
                      | ok fp =>
                        obtain ⟨fld, pos2⟩ := fp
                        simp only [hpf]
                        have hm := parse_field_pos_mono _ _ _ _ hpf
                        exact ih g pos2 (cur ++ [fld]) acc (by omega) (by omega)

/-- Fuel-insensitivity of the header loop. -/
lemma header_loop_fuel_stable (input : List Char) :
    ∀ (f g pos : Nat) (header : AdifHeader),
      byteLen input - pos < f → byteLen input - pos < g →
      parse_header_loop input f pos header = parse_header_loop input g pos header := by
  intro f
  induction f with
  | zero =>
    intro g pos header hf hg
    omega
  | succ f ih =>
    intro g pos header hf hg
    cases g with
    | zero => omega
    | succ g =>
      unfold parse_header_loop
      cases hs : skip_whitespace_and_newlines input pos with
      | none => simp only [hs]
      | some pos1 =>
        simp only [hs]
        have hge := skip_ws_ge input pos pos1 hs
        by_cases hb : byteLen input ≤ pos1
        · rw [if_pos hb, if_pos hb]
        · rw [if_neg hb, if_neg hb]
          cases hp : peek_char input pos1 with
          | none => simp only [hp]
          | some c? =>
            simp only [hp]
            by_cases hc : c? ≠ some '<'
            · rw [if_pos hc, if_pos hc]
              exact ih g (pos1 + 1) header (by omega) (by omega)
            · rw [if_neg hc, if_neg hc]
              cases hce : check_tag input pos1 eohTag with
              | none => simp only [hce]
              | some b =>
                cases b with
                | true =>
                  simp only [hce]
                | false =>
                  simp only [hce]
                  cases hpf : parse_field input pos1 with
                  | crash => simp only [hpf]
                  | error e => simp only [hpf]
                  | ok fp =>
                    obtain ⟨fld, pos2⟩ := fp
                    simp only [hpf]
                    have hm := parse_field_pos_mono _ _ _ _ hpf
                    exact ih g pos2 (header_update header fld) (by omega) (by omega)

/-! ### Claim theorems -/

/-- C1: the spec claims the field value is read as exactly `L` Unicode
scalar values.  The code reads exactly `L` *bytes*
(`self.input[self.pos .. self.pos + length]`): on `<A:2>éX` the declared
length 2 consumes only the two-byte character `é` (one scalar), leaving `X`
behind as noise, where the claim says the value would be the two scalars
`éX`. -/
theorem c1_value_read_is_bytes_not_scalars :
    parse_adi "<A:2>\u00e9X" = RunResult.ok
      ⟨AdifHeader.empty, [⟨[⟨['A'], DataType.Unspecified, ['\u00e9']⟩]⟩]⟩ := by
  decide

/-- C2: the spec claims `parse_adi` is total and never panics because the
cursor advances by whole scalar widths.  The noise-skipping loop advances
one *byte* (`self.pos += 1`), so on the input `é` the cursor lands inside
the two-byte character and the next slice `&self.input[1..]` panics
(modelled by `crash`). -/
theorem c2_parse_adi_panics_on_multibyte_noise :
    parse_adi "\u00e9" = RunResult.crash := by
  decide

/-- C3 counterexample: the claim says header mode is triggered by an
end-of-header marker that may carry trailing `:...` content, e.g.
`<EOH:0>`.  The gate is `input.to_uppercase().contains("<EOH>")`, a literal
substring test, which `<EOH:0>` fails: header parsing is skipped and the
tag is parsed as an ordinary *record field* named `EOH`. -/
theorem c3_eoh_with_content_skips_header_mode :
    parse_adi "<EOH:0>" = RunResult.ok
      ⟨AdifHeader.empty, [⟨[⟨['E', 'O', 'H'], DataType.Unspecified, []⟩]⟩]⟩ := by
  decide

/-- C3 amended: header parsing runs iff the up-cased input contains the
literal five-character substring `<EOH>`; when it does not, the whole input
is parsed as record data with a default empty header, and a bare `<EOH>`
with zero preceding fields yields an empty header with no error. -/
theorem c3_header_mode_iff_literal_eoh :
    (∀ input : List Char,
      contains_sub ("<EOH>".toList) (input.map Char.toUpper) = false →
      parse input =
        (match parse_records input 0 with
          | RunResult.crash => RunResult.crash
          | RunResult.error e => RunResult.error e
          | RunResult.ok records => RunResult.ok ⟨AdifHeader.empty, records⟩)) ∧
    parse_adi "<EOH>" = RunResult.ok ⟨AdifHeader.empty, []⟩ := by
  constructor
  · intro input hfalse
    unfold parse
    rw [hfalse]
    rfl
  · decide

/-- C3 witness: instantiating the amended claim at `<EOH:0>`, whose up-cased
text does not contain the literal `<EOH>`. -/
theorem c3_header_mode_iff_literal_eoh_witness :
    parse ("<EOH:0>".toList) =
      (match parse_records ("<EOH:0>".toList) 0 with
        | RunResult.crash => RunResult.crash
        | RunResult.error e => RunResult.error e
        | RunResult.ok records => RunResult.ok ⟨AdifHeader.empty, records⟩) :=
  c3_header_mode_iff_literal_eoh.1 ("<EOH:0>".toList) (by decide)

/-- C4 counterexample: the claim demands failure whenever the declared
length exceeds the *characters* remaining.  On `<A:4>éé` only 2 characters
remain for a declared length of 4, yet the code succeeds, because its
length check compares *bytes* (`self.pos + length > self.input.len()`) and
`éé` is exactly 4 bytes. -/
theorem c4_char_count_check_refuted :
    parse_adi "<A:4>\u00e9\u00e9" = RunResult.ok
      ⟨AdifHeader.empty, [⟨[⟨['A'], DataType.Unspecified, ['\u00e9', '\u00e9']⟩]⟩]⟩ ∧
    ("\u00e9\u00e9".toList).length < 4 := by
  constructor
  · decide
  · decide

/-- C4 amended: for every specifier whose declared length exceeds the
number of *bytes* remaining after `>`, `parse_field` fails with
`InvalidFieldLength` carrying the offset just past `>`, the declared
length, and the bytes available; in particular `<CALL:10>ABC` fails with
expected = 10, found = 3. -/
theorem c4_length_check_counts_bytes :
    (∀ (input : List Char) (pos : Nat) (name digits rest : List Char) (L : Nat),
      dropB input pos = some ('<' :: (name ++ ':' :: (digits ++ '>' :: rest))) →
      name ≠ [] →
      (∀ c ∈ name, c.utf8Size = 1 ∧ c ≠ ':' ∧ c ≠ '>') →
      parse_usize digits = some L →
      byteLen rest < L →
      parse_field input pos = RunResult.error
        (AdifError.InvalidFieldLength (pos + 1 + name.length + 1 + digits.length + 1) L
          (byteLen rest))) ∧
    parse_adi "<CALL:10>ABC" =
      RunResult.error (AdifError.InvalidFieldLength 9 10 3) := by
  constructor
  · intro input pos name digits rest L h1 h2 h3 h4 h5
    exact parse_field_too_long input pos name digits rest L h1 h2 h3 h4 h5
  · decide

/-- C4 witness: the amended claim at the concrete specifier `<B:2>x`
(declared length 2, one byte available). -/
theorem c4_length_check_counts_bytes_witness :
    parse_field ("<B:2>x".toList) 0 =
      RunResult.error (AdifError.InvalidFieldLength 5 2 1) := by
  have h := c4_length_check_counts_bytes.1 ("<B:2>x".toList) 0 ['B'] ['2'] ['x'] 2
    (by decide) (by decide) (by decide) (by decide) (by decide)
  exact h

/-- C5 counterexample: the claim says *any* unrecognized indicator
character yields a field with `Unspecified` type and no error.  For an
unrecognized multi-byte indicator such as `Ω` the code steps one byte into
the character (`self.pos += 1`) and the next `peek_char` slice panics. -/
theorem c5_multibyte_indicator_panics :
    parse_adi "<A:1:\u03a9>B" = RunResult.crash := by
  decide

/-- C5 amended: `to_char (from_char c) = uppercase c` for every typed
indicator character (those accepted by `from_char`), and any unrecognized
*single-byte* indicator character yields a field with `Unspecified` type
and no error. -/
theorem c5_indicator_roundtrip_and_ascii_fallback :
    (∀ (c : Char) (dt : DataType), DataType.from_char c = some dt →
      DataType.to_char dt = some c.toUpper) ∧
    (∀ (input : List Char) (pos : Nat) (name digits value rest : List Char)
        (tc : Char) (L : Nat),
      dropB input pos =
        some ('<' :: (name ++ ':' :: (digits ++ ':' :: tc :: '>' :: (value ++ rest)))) →
      name ≠ [] →
      (∀ c ∈ name, c.utf8Size = 1 ∧ c ≠ ':' ∧ c ≠ '>') →
      parse_usize digits = some L →
      tc.utf8Size = 1 →
      byteLen value = L →
      DataType.from_char tc = none →
      parse_field input pos = RunResult.ok
        (Field.with_type name DataType.Unspecified value,
          pos + 1 + name.length + 1 + digits.length + 2 + 1 + L)) := by
  constructor
  · intro c dt h
    unfold DataType.from_char at h
    split at h
    all_goals try (injection h with h; subst h)
    all_goals simp_all [DataType.to_char]
  · intro input pos name digits value rest tc L h1 h2 h3 h4 h5 h6 hnone
    have h := parse_field_typed input pos name digits value rest tc L h1 h2 h3 h4 h5 h6
    rwa [hnone] at h

/-- C5 witness: the unrecognized single-byte indicator `%` in `<A:1:%>B`
yields an `Unspecified`-typed field with no error. -/
theorem c5_indicator_roundtrip_and_ascii_fallback_witness :
    parse_field ("<A:1:%>B".toList) 0 =
      RunResult.ok (Field.with_type ['A'] DataType.Unspecified ['B'], 8) := by
  have h := c5_indicator_roundtrip_and_ascii_fallback.2 ("<A:1:%>B".toList) 0 ['A'] ['1']
    ['B'] [] '%' 1 (by decide) (by decide) (by decide) (by decide) (by decide) (by decide)
    (by decide)
  exact h

/-- C6: an `EOR` with zero accumulated fields emits nothing — records are
pushed only when non-empty, so no parsed document ever contains an empty
record — and `<EOR><EOR><CALL:5>N0CALL<EOR>` yields exactly one record
(whose value is the declared 5 bytes `N0CAL`). -/
theorem c6_empty_eor_emits_no_record :
    (∀ (input : List Char) (file : AdifFile), parse input = RunResult.ok file →
      file.records.all (fun r => !r.fields.isEmpty) = true) ∧
    parse_adi "<EOR><EOR><CALL:5>N0CALL<EOR>" = RunResult.ok
      ⟨AdifHeader.empty,
        [⟨[⟨"CALL".toList, DataType.Unspecified, "N0CAL".toList⟩]⟩]⟩ := by
  constructor
  · intro input file h
    have hrec : ∀ r ∈ file.records, r.fields ≠ [] := by
      unfold parse at h
      repeat' split at h
      all_goals try exact absurd h (fun hh => RunResult.noConfusion hh)
      all_goals injection h with h
      all_goals subst h
      all_goals rename parse_records _ _ = RunResult.ok _ => hpr
      all_goals unfold parse_records at hpr
      all_goals exact records_loop_no_empty input _ _ _ _ _ (by simp) hpr
    rw [List.all_eq_true]
    intro r hr
    simpa [List.isEmpty_iff] using hrec r hr
  · decide

/-- C6 witness: the invariant applied to the parse of `<CALL:6>N0CALL<EOR>`. -/
theorem c6_empty_eor_emits_no_record_witness :
    (AdifFile.mk AdifHeader.empty
      [⟨[⟨"CALL".toList, DataType.Unspecified, "N0CALL".toList⟩]⟩]).records.all
      (fun r => !r.fields.isEmpty) = true :=
  c6_empty_eor_emits_no_record.1 ("<CALL:6>N0CALL<EOR>".toList) _ (by decide)

/-- C7: when the record loop meets an `EOF` tag it stops at once with the
records accumulated so far (the in-progress record included when
non-empty), so everything after `<EOF>` is discarded; in particular
`<CALL:5>W1AW1<EOR><EOF><CALL:5>W1AW2<EOR>` yields exactly one record. -/
theorem c7_eof_truncates_parsing :
    (∀ (input : List Char) (fuel pos : Nat) (cur : List Field) (acc : List Record)
        (pos1 pos2 : Nat),
      skip_whitespace_and_newlines input pos = some pos1 →
      pos1 < byteLen input →
      peek_char input pos1 = some (some '<') →
      check_tag input pos1 eorTag = some false →
      check_tag input pos1 eofTag = some true →
      skip_tag input pos1 eofTag = RunResult.ok pos2 →
      parse_records_loop input (fuel + 1) pos cur acc =
        RunResult.ok (finish_records acc cur)) ∧
    parse_adi "<CALL:5>W1AW1<EOR><EOF><CALL:5>W1AW2<EOR>" = RunResult.ok
      ⟨AdifHeader.empty,
        [⟨[⟨"CALL".toList, DataType.Unspecified, "W1AW1".toList⟩]⟩]⟩ := by
  constructor
  · intro input fuel pos cur acc pos1 pos2 h1 h2 h3 h4 h5 h6
    exact records_loop_eof_step input fuel pos cur acc pos1 pos2 h1 h2 h3 h4 h5 h6
  · decide

/-- C7 witness: the record loop on `<EOF>xyz` stops immediately with the
(empty) accumulated state, ignoring the trailing junk. -/
theorem c7_eof_truncates_parsing_witness :
    parse_records_loop ("<EOF>xyz".toList) 1 0 [] [] =
      RunResult.ok (finish_records [] []) :=
  c7_eof_truncates_parsing.1 ("<EOF>xyz".toList) 0 0 [] [] 0 5
    (by decide) (by decide) (by decide) (by decide) (by decide) (by decide)

/-- C8: `Record::get` up-cases the query and returns the first field whose
stored (upper-cased) name matches, or `none`; lookups by any case variant
agree, and `<call:...>`, `<Call:...>`, `<CALL:...>` all populate fields
named `CALL` found by the same lookup (first match wins). -/
theorem c8_get_case_insensitive_first_match :
    (∀ (fs : List Field) (n1 n2 : List Char),
      n1.map Char.toUpper = n2.map Char.toUpper →
      Record.get ⟨fs⟩ n1 = Record.get ⟨fs⟩ n2) ∧
    (∀ n : List Char, Record.get ⟨[]⟩ n = none) ∧
    (∀ (f : Field) (fs : List Field) (n : List Char),
      Record.get ⟨f :: fs⟩ n =
        if f.name = n.map Char.toUpper then some f else Record.get ⟨fs⟩ n) ∧
    (parse_adi "<call:5>W1AW1<Call:5>W1AW2<CALL:5>W1AW3<EOR>" = RunResult.ok
      ⟨AdifHeader.empty,
        [⟨[⟨"CALL".toList, DataType.Unspecified, "W1AW1".toList⟩,
           ⟨"CALL".toList, DataType.Unspecified, "W1AW2".toList⟩,
           ⟨"CALL".toList, DataType.Unspecified, "W1AW3".toList⟩]⟩]⟩ ∧
     Record.get_value
       ⟨[⟨"CALL".toList, DataType.Unspecified, "W1AW1".toList⟩,
         ⟨"CALL".toList, DataType.Unspecified, "W1AW2".toList⟩,
         ⟨"CALL".toList, DataType.Unspecified, "W1AW3".toList⟩]⟩ ("cAlL".toList) =
       some ("W1AW1".toList)) := by
  refine ⟨?_, ?_, ?_, ?_, ?_⟩
  · intro fs n1 n2 h
    unfold Record.get
    rw [h]
  · intro n
    rfl
  · intro f fs n
    by_cases h : f.name = n.map Char.toUpper <;>
      simp [Record.get, List.find?_cons, h]
  · decide
  · decide

/-- C8 witness: lookups by `call` and `CALL` agree on the empty record. -/
theorem c8_get_case_insensitive_first_match_witness :
    Record.get ⟨([] : List Field)⟩ ("call".toList) =
      Record.get ⟨([] : List Field)⟩ ("CALL".toList) :=
  c8_get_case_insensitive_first_match.1 [] ("call".toList) ("CALL".toList) (by decide)

/-- C9 counterexample: the claim says `parse_adi` completes *returning a
Document or an error*.  On `<A:1>é` the declared length 1 splits the
two-byte value character, the byte slice
`self.input[self.pos .. self.pos + 1]` panics, and no Document or error
value is returned (`crash`). -/
theorem c9_value_slice_panics :
    parse_adi "<A:1>\u00e9" = RunResult.crash := by
  decide

/-- C9 amended: parsing terminates in a single pass bounded by the input
length — every loop iteration advances the byte cursor, so both loops are
insensitive to any fuel exceeding the remaining byte count — and the
outcome is a Document, a typed error, or (for inputs that trip the
byte-slicing panic) a panic. -/
theorem c9_single_pass_terminates :
    (∀ (input : List Char) (f g pos : Nat) (cur : List Field) (acc : List Record),
      byteLen input - pos < f → byteLen input - pos < g →
      parse_records_loop input f pos cur acc = parse_records_loop input g pos cur acc) ∧
    (∀ (input : List Char) (f g pos : Nat) (header : AdifHeader),
      byteLen input - pos < f → byteLen input - pos < g →
      parse_header_loop input f pos header = parse_header_loop input g pos header) :=
  ⟨fun input => records_loop_fuel_stable input,
   fun input => header_loop_fuel_stable input⟩

/-- C9 witness: any fuel above the byte length of `<EOR>` gives the same
result of the record loop. -/
theorem c9_single_pass_terminates_witness :
    parse_records_loop ("<EOR>".toList) 6 0 [] [] =
      parse_records_loop ("<EOR>".toList) 7 0 [] [] :=
  c9_single_pass_terminates.1 ("<EOR>".toList) 6 7 0 [] [] (by decide) (by decide)

/-- C10: a marker tag `<NAME>` with a non-empty name that is not
(case-insensitively) a structural marker is neither an error nor skipped:
the record loop appends `Field(upper name, Unspecified, "")` to the
in-progress record, and the header loop routes the same field into the
header's field list via `header_update`. -/
theorem c10_unknown_marker_becomes_field :
    (∀ (input : List Char) (fuel pos : Nat) (cur : List Field) (acc : List Record)
        (pos1 : Nat) (name rest : List Char),
      skip_whitespace_and_newlines input pos = some pos1 →
      pos1 < byteLen input →
      dropB input pos1 = some ('<' :: (name ++ '>' :: rest)) →
      name ≠ [] →
      (∀ c ∈ name, c.utf8Size = 1 ∧ c ≠ ':' ∧ c ≠ '>') →
      name.map Char.toUpper ≠ eorTag →
      name.map Char.toUpper ≠ eofTag →
      parse_records_loop input (fuel + 1) pos cur acc =
        parse_records_loop input fuel (pos1 + 1 + name.length + 1)
          (cur ++ [Field.new name []]) acc) ∧
    (∀ (input : List Char) (fuel pos : Nat) (header : AdifHeader)
        (pos1 : Nat) (name rest : List Char),
      skip_whitespace_and_newlines input pos = some pos1 →
      pos1 < byteLen input →
      dropB input pos1 = some ('<' :: (name ++ '>' :: rest)) →
      name ≠ [] →
      (∀ c ∈ name, c.utf8Size = 1 ∧ c ≠ ':' ∧ c ≠ '>') →
      name.map Char.toUpper ≠ eohTag →
      parse_header_loop input (fuel + 1) pos header =
        parse_header_loop input fuel (pos1 + 1 + name.length + 1)
          (header_update header (Field.new name []))) := by
  constructor
  · intro input fuel pos cur acc pos1 name rest h1 h2 h3 h4 h5 h6 h7
    exact records_loop_marker_step input fuel pos cur acc pos1 name rest h1 h2 h3 h4 h5 h6 h7
  · intro input fuel pos header pos1 name rest h1 h2 h3 h4 h5 h6
    exact header_loop_marker_step input fuel pos header pos1 name rest h1 h2 h3 h4 h5 h6

/-- C10 witness: the marker `<QRZ>` is appended as a field by the record
loop. -/
theorem c10_unknown_marker_becomes_field_witness :
    parse_records_loop ("<QRZ>".toList) 1 0 [] [] =
      parse_records_loop ("<QRZ>".toList) 0 5 [Field.new ("QRZ".toList) []] [] := by
  have h := c10_unknown_marker_becomes_field.1 ("<QRZ>".toList) 0 0 [] [] 0
    ("QRZ".toList) [] (by decide) (by decide) (by decide) (by decide) (by decide)
    (by decide) (by decide)
  exact h

end Adif
